import Mathlib

/-!
Shallow embedding of the debug-server capture/lifecycle engine
(`DebugServer` in the repository source): JSON values as produced by
`JSON.parse` / consumed by `JSON.stringify`, the NDJSON log file, the
port file, and the five lifecycle operations `start`, `stop`,
`readLogs`, `clearLogs`, `appendLog`, plus the `POST /log` handler.
-/

namespace DebugSrv

/-- JSON values (integer numerals model the numeric payloads used by the
program; fractional numbers are outside the model). -/
inductive Json where
  | null : Json
  | bool : Bool → Json
  | num : Int → Json
  | str : String → Json
  | arr : List Json → Json
  | obj : List (String × Json) → Json

mutual
/-- Boolean equality on JSON values. -/
def beqJ : Json → Json → Bool
  | .obj ma, .obj mb => beqM ma mb
  | .arr ea, .arr eb => beqL ea eb
  | .str sa, .str sb => sa == sb
  | .num na, .num nb => na == nb
  | .bool ba, .bool bb => ba == bb
  | .null, .null => true
  | _, _ => false

/-- Boolean equality on JSON arrays. -/
def beqL : List Json → List Json → Bool
  | p :: ps, q :: qs => beqJ p q && beqL ps qs
  | [], [] => true
  | _, _ => false

/-- Boolean equality on JSON object member lists. -/
def beqM : List (String × Json) → List (String × Json) → Bool
  | (ka, va) :: ps, (kb, vb) :: qs => ka == kb && beqJ va vb && beqM ps qs
  | [], [] => true
  | _, _ => false
end

mutual
theorem beqJ_iff : ∀ a b, beqJ a b = true ↔ a = b
  | .null, b => by cases b <;> simp [beqJ]
  | .bool x, b => by cases b <;> simp [beqJ]
  | .num x, b => by cases b <;> simp [beqJ]
  | .str x, b => by cases b <;> simp [beqJ]
  | .arr l, b => by
    cases b with
    | arr m => simpa [beqJ, Json.arr.injEq] using beqL_iff l m
    | null => simp [beqJ]
    | bool x => simp [beqJ]
    | num x => simp [beqJ]
    | str x => simp [beqJ]
    | obj m => simp [beqJ]
  | .obj l, b => by
    cases b with
    | obj m => simpa [beqJ, Json.obj.injEq] using beqM_iff l m
    | null => simp [beqJ]
    | bool x => simp [beqJ]
    | num x => simp [beqJ]
    | str x => simp [beqJ]
    | arr m => simp [beqJ]

theorem beqL_iff : ∀ a b, beqL a b = true ↔ a = b
  | [], [] => by simp [beqL]
  | [], _ :: _ => by simp [beqL]
  | _ :: _, [] => by simp [beqL]
  | x :: xs, y :: ys => by
    simp only [beqL, Bool.and_eq_true, beqJ_iff x y, beqL_iff xs ys, List.cons.injEq]

theorem beqM_iff : ∀ a b, beqM a b = true ↔ a = b
  | [], [] => by simp [beqM]
  | [], _ :: _ => by simp [beqM]
  | _ :: _, [] => by simp [beqM]
  | (ka, va) :: ps, (kb, vb) :: qs => by
    simp only [beqM, Bool.and_eq_true, beqJ_iff va vb, beqM_iff ps qs, List.cons.injEq,
      Prod.mk.injEq, beq_iff_eq, and_assoc]
end

instance : DecidableEq Json := fun a b =>
  decidable_of_iff (beqJ a b = true) (beqJ_iff a b)

/-- Decimal digit character for `d < 10` (`'0' + d`). -/
def digitChar (d : Nat) : Char := Char.ofNat (48 + d)

/-- Fuel-driven digit printer (structural so concrete values reduce). -/
def natCharsAux : Nat → Nat → List Char
  | 0, _ => []
  | fuel + 1, n =>
    if n < 10 then [digitChar n]
    else natCharsAux fuel (n / 10) ++ [digitChar (n % 10)]

/-- Decimal digit characters of a natural number, most significant first;
models JavaScript `String(n)` for a non-negative integer. -/
def natChars (n : Nat) : List Char := natCharsAux (n + 1) n

theorem natCharsAux_fuel_irrel :
    ∀ f₁ f₂ n, n < f₁ → n < f₂ → natCharsAux f₁ n = natCharsAux f₂ n := by
  intro f₁
  induction f₁ with
  | zero => intro f₂ n h; omega
  | succ f ih =>
    intro f₂ n h₁ h₂
    match f₂, h₂ with
    | f₂ + 1, h₂ =>
      simp only [natCharsAux]
      by_cases h10 : n < 10
      · simp [h10]
      · have hd : n / 10 < n := Nat.div_lt_self (by omega) (by omega)
        rw [if_neg h10, if_neg h10, ih f₂ (n / 10) (by omega) (by omega)]

/-- The natural unfolding of `natChars`. -/
theorem natChars_eq (n : Nat) :
    natChars n = if n < 10 then [digitChar n] else natChars (n / 10) ++ [digitChar (n % 10)] := by
  by_cases h10 : n < 10
  · simp [natChars, natCharsAux, h10]
  · have hd : n / 10 < n := Nat.div_lt_self (by omega) (by omega)
    have h1 : natCharsAux (n + 1) n = natCharsAux n (n / 10) ++ [digitChar (n % 10)] := by
      simp only [natCharsAux, if_neg h10]
    rw [natChars, h1, if_neg h10, natChars,
      natCharsAux_fuel_irrel n (n / 10 + 1) (n / 10) (by omega) (by omega)]

/-- Characters of a signed decimal numeral; models `String(n)` /
`JSON.stringify(n)` for an integer. -/
def intChars (n : Int) : List Char :=
  if n < 0 then '-' :: natChars n.natAbs else natChars n.toNat

/-- Lower-case hexadecimal digit for `d < 16`. -/
def hexChar (d : Nat) : Char :=
  if d < 10 then Char.ofNat (48 + d) else Char.ofNat (87 + d)

/-- How `JSON.stringify` escapes one character inside a string literal:
`"` and `\` are backslash-escaped, the five named control characters use
their short escapes, all other control characters use `\u00xx`, and every
other character is emitted verbatim. -/
def escChar (c : Char) : List Char :=
  if c = '"' then ['\\', '"']
  else if c = '\\' then ['\\', '\\']
  else if c.toNat = 8 then ['\\', 'b']
  else if c.toNat = 12 then ['\\', 'f']
  else if c = '\n' then ['\\', 'n']
  else if c = '\r' then ['\\', 'r']
  else if c = '\t' then ['\\', 't']
  else if c.toNat < 32 then
    ['\\', 'u', '0', '0', hexChar (c.toNat / 16), hexChar (c.toNat % 16)]
  else [c]

/-- Escape every character of a string body. -/
def escChars : List Char → List Char
  | [] => []
  | c :: cs => escChar c ++ escChars cs

mutual
/-- Characters of the compact JSON serialization; models
`JSON.stringify` with default options. -/
def stringifyChars : Json → List Char
  | .null => "null".data
  | .bool true => "true".data
  | .bool false => "false".data
  | .num n => intChars n
  | .str s => '"' :: (escChars s.data ++ ['"'])
  | .arr [] => ['[', ']']
  | .arr (x :: xs) => '[' :: (stringifyChars x ++ elemsChars xs ++ [']'])
  | .obj [] => ['{', '}']
  | .obj (m :: ms) => '{' :: (memberChars m ++ membersChars ms ++ ['}'])

/-- Remaining array elements, each preceded by a comma. -/
def elemsChars : List Json → List Char
  | e :: es => ',' :: (stringifyChars e ++ elemsChars es)
  | [] => []

/-- One object member, rendered as `"key":value`. -/
def memberChars : String × Json → List Char
  | (k, v) => '"' :: (escChars k.data ++ '"' :: ':' :: stringifyChars v)

/-- Remaining object members, each preceded by a comma. -/
def membersChars : List (String × Json) → List Char
  | m :: ms => ',' :: (memberChars m ++ membersChars ms)
  | [] => []
end

/-- `JSON.stringify` as a string-valued function. -/
def stringify (j : Json) : String := String.mk (stringifyChars j)

/-! ## JSON parsing (`JSON.parse`) -/

/-- JSON insignificant whitespace (RFC 8259: space, tab, newline, return). -/
def isJsonWs (c : Char) : Bool :=
  c.toNat = 32 || c.toNat = 9 || c.toNat = 10 || c.toNat = 13

/-- Skip insignificant whitespace. -/
def skipWs (cs : List Char) : List Char := cs.dropWhile isJsonWs

/-- Value of a decimal digit character. -/
def digitVal (c : Char) : Nat := c.toNat - 48

/-- Consume a maximal run of decimal digits, accumulating their value. -/
def parseDigitsAux (acc : Nat) : List Char → Nat × List Char
  | [] => (acc, [])
  | c :: cs =>
    if c.isDigit then parseDigitsAux (acc * 10 + digitVal c) cs else (acc, c :: cs)

/-- Parse a non-empty run of decimal digits. -/
def parseNat : List Char → Option (Nat × List Char)
  | [] => none
  | c :: cs => if c.isDigit then some (parseDigitsAux (digitVal c) cs) else none

/-- Value of a hexadecimal digit character, if it is one. -/
def hexVal (c : Char) : Option Nat :=
  if 48 ≤ c.toNat ∧ c.toNat ≤ 57 then some (c.toNat - 48)
  else if 97 ≤ c.toNat ∧ c.toNat ≤ 102 then some (c.toNat - 87)
  else if 65 ≤ c.toNat ∧ c.toNat ≤ 70 then some (c.toNat - 55)
  else none

/-- Decode a single-character string escape (`\u` is handled separately). -/
def unescChar (e : Char) : Option Char :=
  if e = '"' then some '"'
  else if e = '\\' then some '\\'
  else if e = '/' then some '/'
  else if e = 'b' then some (Char.ofNat 8)
  else if e = 'f' then some (Char.ofNat 12)
  else if e = 'n' then some '\n'
  else if e = 'r' then some '\r'
  else if e = 't' then some '\t'
  else none

/-- Parse the body of a JSON string literal after the opening quote, up to
and including the closing quote; returns the decoded characters and the
input after the closing quote.  Raw control characters are rejected, as
`JSON.parse` rejects them. -/
def parseStrAux : List Char → Option (List Char × List Char)
  | [] => none
  | '"' :: rest => some ([], rest)
  | '\\' :: 'u' :: e1 :: e2 :: e3 :: e4 :: rest => do
    let v1 ← hexVal e1
    let v2 ← hexVal e2
    let v3 ← hexVal e3
    let v4 ← hexVal e4
    let v := ((v1 * 16 + v2) * 16 + v3) * 16 + v4
    if v < 0xd800 ∨ (0xdfff < v ∧ v < 0x110000) then
      (parseStrAux rest).map fun p => (Char.ofNat v :: p.1, p.2)
    else none
  | '\\' :: e :: rest =>
    match unescChar e with
    | some c => (parseStrAux rest).map fun p => (c :: p.1, p.2)
    | none => none
  | c :: rest =>
    if c.toNat < 32 then none
    else (parseStrAux rest).map fun p => (c :: p.1, p.2)

/-- Match an expected literal suffix (used for `null`, `true`, `false`). -/
def expectLit : List Char → List Char → Option (List Char)
  | [], cs => some cs
  | _ :: _, [] => none
  | e :: es, c :: cs => if c = e then expectLit es cs else none

mutual
/-- Fuel-driven JSON value parser; consumes leading whitespace, then one
JSON value, returning it with the unconsumed input. -/
def parseVal : Nat → List Char → Option (Json × List Char)
  | 0, _ => none
  | fuel + 1, cs =>
    match skipWs cs with
    | [] => none
    | c :: rest =>
      if c = 'n' then (expectLit ['u', 'l', 'l'] rest).map fun r => (.null, r)
      else if c = 't' then (expectLit ['r', 'u', 'e'] rest).map fun r => (.bool true, r)
      else if c = 'f' then (expectLit ['a', 'l', 's', 'e'] rest).map fun r => (.bool false, r)
      else if c = '"' then (parseStrAux rest).map fun p => (.str (String.mk p.1), p.2)
      else if c = '[' then
        match skipWs rest with
        | ']' :: rest' => some (.arr [], rest')
        | rest' => (parseElems fuel rest').map fun p => (.arr p.1, p.2)
      else if c = '{' then
        match skipWs rest with
        | '}' :: rest' => some (.obj [], rest')
        | rest' => (parseMembers fuel rest').map fun p => (.obj p.1, p.2)
      else if c = '-' then (parseNat rest).map fun p => (.num (-(p.1 : Int)), p.2)
      else if c.isDigit then (parseNat (c :: rest)).map fun p => (.num (p.1 : Int), p.2)
      else none

/-- Parse a non-empty comma-separated element list followed by `]`. -/
def parseElems : Nat → List Char → Option (List Json × List Char)
  | 0, _ => none
  | fuel + 1, cs => do
    let (j, rest) ← parseVal fuel cs
    match skipWs rest with
    | [] => none
    | c :: rest' =>
      if c = ',' then (parseElems fuel rest').map fun p => (j :: p.1, p.2)
      else if c = ']' then some ([j], rest')
      else none

/-- Parse a non-empty comma-separated member list followed by `}`. -/
def parseMembers : Nat → List Char → Option (List (String × Json) × List Char)
  | 0, _ => none
  | fuel + 1, cs =>
    match skipWs cs with
    | '"' :: rest => do
      let (k, rest₁) ← parseStrAux rest
      match skipWs rest₁ with
      | c :: rest₂ =>
        if c = ':' then do
          let (v, rest₃) ← parseVal fuel rest₂
          match skipWs rest₃ with
          | c' :: rest₄ =>
            if c' = ',' then (parseMembers fuel rest₄).map fun p =>
              ((String.mk k, v) :: p.1, p.2)
            else if c' = '}' then some ([(String.mk k, v)], rest₄)
            else none
          | [] => none
        else none
      | [] => none
    | _ => none
end

/-- `JSON.parse` on one whole string: the parse succeeds only when the
entire input is one JSON value surrounded by optional whitespace. -/
def parseLine (cs : List Char) : Option Json :=
  match parseVal (cs.length + 1) cs with
  | some (j, rest) => if skipWs rest = [] then some j else none
  | none => none

/-! ## JavaScript string helpers used by the server -/

/-- Whitespace for JavaScript `String.prototype.trim`, by code point
(space, tab, line feed, carriage return, vertical tab, form feed). -/
def isJsWs (c : Char) : Bool :=
  c.toNat = 32 || c.toNat = 9 || c.toNat = 10 || c.toNat = 13 ||
    c.toNat = 11 || c.toNat = 12

/-- JavaScript `content.trim()`: strip whitespace from both ends. -/
def jsTrim (cs : List Char) : List Char :=
  ((cs.dropWhile isJsWs).reverse.dropWhile isJsWs).reverse

/-- JavaScript `content.split('\n')`. -/
def jsSplitNl : List Char → List (List Char)
  | [] => [[]]
  | c :: cs =>
    if c = '\n' then [] :: jsSplitNl cs
    else
      match jsSplitNl cs with
      | l :: ls => (c :: l) :: ls
      | [] => [[c]]

/-- JavaScript `parseInt(s, 10)`: skip leading whitespace, read an
optional sign and then a non-empty maximal digit run, ignoring any
trailing garbage; `none` models `NaN`. -/
def parseIntJS (s : String) : Option Int :=
  match skipWs s.data with
  | '-' :: cs => (parseNat cs).map fun p => -(p.1 : Int)
  | '+' :: cs => (parseNat cs).map fun p => (p.1 : Int)
  | cs => (parseNat cs).map fun p => (p.1 : Int)

/-! ## Server state model

`DebugServer` holds three mutable fields: `server` (the bound listener,
modelled by its port), `writer` (the buffered `FileSink` on the log
file), and `flushInterval` (the auto-flush timer).  The filesystem holds
the two files `.opencode/debug.port` and `.opencode/debug.log`; `none`
models a file that does not exist. -/

/-- A buffered `FileSink` on the log file: `buf` holds bytes written but
not yet flushed; `closed` is set once `end()` has been called. -/
structure Writer where
  buf : String
  closed : Bool
deriving DecidableEq

/-- A freshly opened `file.writer({highWaterMark: 8192})`. -/
def freshWriter : Writer := ⟨"", false⟩

/-- The mutable fields of the `DebugServer` singleton. -/
structure St where
  server : Option Nat
  writer : Option Writer
  flushInterval : Bool
deriving DecidableEq

/-- The two files the server touches; `none` = file absent. -/
structure FS where
  portFile : Option String
  logFile : Option String
deriving DecidableEq

/-- `writer.write(s)`: append to the in-memory buffer (a closed sink
accepts no further bytes). -/
def writerWrite (w : Writer) (s : String) : Writer :=
  if w.closed then w else { w with buf := w.buf ++ s }

/-- `writer.flush()`: move buffered bytes to the end of the log file
(creating it if absent); a no-op on a closed sink. -/
def writerFlush (w : Writer) (fs : FS) : Writer × FS :=
  if w.closed then (w, fs)
  else ({ w with buf := "" }, { fs with logFile := some (fs.logFile.getD "" ++ w.buf) })

/-- `writer.end()`: final flush, then release the handle. -/
def writerEnd (w : Writer) (fs : FS) : Writer × FS :=
  let (w', fs') := writerFlush w fs
  ({ w' with closed := true }, fs')

/-- A log entry as built by the `POST /log` handler.  The TypeScript
interface declares `label : string`, but the handler stores
`body.label ?? 'unknown'`, which can be any JSON value at runtime, so the
field is modelled as `Json`. -/
structure LogEntry where
  timestamp : String
  label : Json
  data : Json
deriving DecidableEq

/-- The JSON object `JSON.stringify` serializes for a log entry
(insertion order: timestamp, label, data). -/
def LogEntry.toJson (e : LogEntry) : Json :=
  .obj [("timestamp", .str e.timestamp), ("label", e.label), ("data", e.data)]

/-- Result of `start`. -/
structure StartResult where
  port : Nat
  url : String
deriving DecidableEq

/-- `http://localhost:${port}`. -/
def urlFor (p : Nat) : String := "http://localhost:" ++ String.mk (natChars p)

/-- Outcome of `Bun.serve` on the resolved port: a successful bind
reporting the actual port, or a thrown bind error (port conflict). -/
inductive BindOutcome where
  | ok : Nat → BindOutcome
  | conflict : BindOutcome
deriving DecidableEq

/-- `persistPort(port)`: `Bun.write(portFile, String(port))` (the
directory is created first; directories are implicit in the model). -/
def persistPort (port : Nat) (fs : FS) : FS :=
  { fs with portFile := some (String.mk (natChars port)) }

/-- `loadPersistedPort()`: `none` when the file is absent or
`parseInt(content.trim(), 10)` is `NaN`; any read error also yields
`none`. -/
def loadPersistedPort (fs : FS) : Option Int :=
  match fs.portFile with
  | none => none
  | some content => parseIntJS (String.mk (jsTrim content.data))

/-- Line 56 of the source: `port ?? (await this.loadPersistedPort()) ?? 0`. -/
def resolvePort (port? : Option Int) (fs : FS) : Int :=
  port?.getD ((loadPersistedPort fs).getD 0)

/-- `start(port?)`.  The bind environment is passed as an oracle mapping
the requested port to a `Bun.serve` outcome.  On a bind error the
exception propagates to the caller (`Except.error`); note the writer has
already been opened at that point, exactly as in the source. -/
def start (s : St) (fs : FS) (port? : Option Int) (oracle : Int → BindOutcome) :
    Except Unit StartResult × St × FS :=
  match s.server with
  | some existingPort => (.ok ⟨existingPort, urlFor existingPort⟩, s, fs)
  | none =>
    match oracle (resolvePort port? fs) with
    | .conflict => (.error (), { s with writer := some freshWriter }, fs)
    | .ok actualPort =>
      (.ok ⟨actualPort, urlFor actualPort⟩,
        (⟨some actualPort, some freshWriter, true⟩ : St),
        persistPort actualPort fs)

/-- `stop()`: cancel the timer, flush and end the writer, null it, stop
the listener. -/
def stop (s : St) (fs : FS) : St × FS :=
  let s := { s with flushInterval := false }
  let (s, fs) :=
    match s.writer with
    | some w =>
      let (w₁, fs₁) := writerFlush w fs
      let (_, fs₂) := writerEnd w₁ fs₁
      ({ s with writer := none }, fs₂)
    | none => (s, fs)
  ({ s with server := none }, fs)

/-- `isRunning()`. -/
def isRunning (s : St) : Bool := s.server.isSome

/-- The parsed-entries pipeline of `readLogs`:
`content.trim().split('\n').filter(Boolean)` then `JSON.parse` each line,
skipping malformed lines. -/
def parsedLines (content : String) : List Json :=
  (((jsSplitNl (jsTrim content.data)).filter fun l => !l.isEmpty).filterMap parseLine)

/-- The pure read of `readLogs`: absent file → empty list, else parse
line by line and apply the tail slice when `tail > 0`
(`entries.slice(-tail)`). -/
def readEntries (tail? : Option Int) (fs : FS) : List Json :=
  match fs.logFile with
  | none => []
  | some content =>
    let entries := parsedLines content
    match tail? with
    | some t => if 0 < t then entries.drop (entries.length - t.toNat) else entries
    | none => entries

/-- `readLogs(tail?)`: flush the writer so buffered data is visible
(this is the only state effect), then read and parse the file. -/
def readLogs (tail? : Option Int) (s : St) (fs : FS) : List Json × St × FS :=
  match s.writer with
  | some w =>
    let (w', fs') := writerFlush w fs
    (readEntries tail? fs', { s with writer := some w' }, fs')
  | none => (readEntries tail? fs, s, fs)

/-- `clearLogs()`: flush and end any open writer (the field is not
nulled), truncate the file to zero bytes, and reopen a fresh writer when
the server is running. -/
def clearLogs (s : St) (fs : FS) : St × FS :=
  let (s, fs) :=
    match s.writer with
    | some w =>
      let (w₁, fs₁) := writerFlush w fs
      let (w₂, fs₂) := writerEnd w₁ fs₁
      ({ s with writer := some w₂ }, fs₂)
    | none => (s, fs)
  let fs := { fs with logFile := some "" }
  if s.server.isSome then ({ s with writer := some freshWriter }, fs) else (s, fs)

/-- `appendLog(entry)`: with no open writer, read-modify-append the whole
file (creating it when absent); otherwise hand one NDJSON line to the
buffered writer. -/
def appendLog (e : LogEntry) (s : St) (fs : FS) : St × FS :=
  match s.writer with
  | none =>
    let existing := fs.logFile.getD ""
    (s, { fs with logFile := some (existing ++ stringify e.toJson ++ "\n") })
  | some w => ({ s with writer := some (writerWrite w (stringify e.toJson ++ "\n")) }, fs)

/-! ## The `POST /log` handler -/

/-- JavaScript property access `body.k` on a parsed JSON value: `none`
models `undefined`; accessing a property of `null` throws a `TypeError`
(`Except.error`); primitives and arrays box to objects without the
property. -/
def jsAccess (j : Json) (k : String) : Except Unit (Option Json) :=
  match j with
  | .null => .error ()
  | .obj members => .ok (members.lookup k)
  | _ => .ok none

/-- JavaScript `x ?? d` where `none` models `undefined`. -/
def jsCoalesce (x : Option Json) (d : Json) : Json :=
  match x with
  | none => d
  | some .null => d
  | some v => v

/-- Response body `{"success": true}`. -/
def successBody : Json := .obj [("success", .bool true)]

/-- Response body `{"error": "Invalid JSON"}`. -/
def errorBody : Json := .obj [("error", .str "Invalid JSON")]

/-- The `POST /log` route handler.  `body?` is the outcome of
`await c.req.json()` (`none` = the body failed to parse as JSON), `now`
is `new Date().toISOString()`.  Returns the HTTP status and response
body together with the updated state; any exception inside the `try`
(including the `TypeError` from property access on a `null` body) is
caught and answered with `400 {"error": "Invalid JSON"}`. -/
def postLog (body? : Option Json) (now : String) (s : St) (fs : FS) :
    (Nat × Json) × St × FS :=
  match body? with
  | none => ((400, errorBody), s, fs)
  | some body =>
    let attempt : Except Unit (St × FS) := do
      let lbl ← jsAccess body "label"
      let dat ← jsAccess body "data"
      let entry : LogEntry := ⟨now, jsCoalesce lbl (.str "unknown"), jsCoalesce dat body⟩
      pure (appendLog entry s fs)
    match attempt with
    | .ok (s', fs') => ((200, successBody), s', fs')
    | .error _ => ((400, errorBody), s, fs)

/-! ## Character-level lemmas -/

theorem char_toNat_inj {c d : Char} (h : c.toNat = d.toNat) : c = d := by
  have := congrArg Char.ofNat h
  simpa using this

theorem toNat_ofNat_valid {n : Nat} (h : n < 55296) : (Char.ofNat n).toNat = n := by
  have hv : n.isValidChar := Or.inl h
  simp [Char.ofNat, hv, Char.ofNatAux, Char.toNat, UInt32.toNat, BitVec.toNat_ofNatLt]

theorem isDigit_toNat {c : Char} (h : c.isDigit = true) : 48 ≤ c.toNat ∧ c.toNat ≤ 57 := by
  simp only [Char.isDigit, Bool.and_eq_true, decide_eq_true_eq] at h
  obtain ⟨h1, h2⟩ := h
  simp only [Char.le_def, UInt32.le_def, BitVec.le_def] at h1 h2
  exact ⟨h1, h2⟩

theorem digitChar_toNat {d : Nat} (h : d < 10) : (digitChar d).toNat = 48 + d :=
  toNat_ofNat_valid (by omega)

theorem digitChar_isDigit {d : Nat} (h : d < 10) : (digitChar d).isDigit = true := by
  interval_cases d <;> decide

theorem digitVal_digitChar {d : Nat} (h : d < 10) : digitVal (digitChar d) = d := by
  simp [digitVal, digitChar_toNat h]

theorem isDigit_not_jsonWs {c : Char} (h : c.isDigit = true) : isJsonWs c = false := by
  obtain ⟨h1, h2⟩ := isDigit_toNat h
  simp only [isJsonWs, Bool.or_eq_false_iff, decide_eq_false_iff_not]
  omega

theorem isDigit_not_jsWs {c : Char} (h : c.isDigit = true) : isJsWs c = false := by
  obtain ⟨h1, h2⟩ := isDigit_toNat h
  simp only [isJsWs, Bool.or_eq_false_iff, decide_eq_false_iff_not]
  omega

/-! ## Digit-printer round-trip -/

theorem natCharsAux_all_digit :
    ∀ fuel n c, c ∈ natCharsAux fuel n → c.isDigit = true := by
  intro fuel
  induction fuel with
  | zero => intro n c h; simp [natCharsAux] at h
  | succ f ih =>
    intro n c h
    simp only [natCharsAux] at h
    by_cases h10 : n < 10
    · rw [if_pos h10] at h
      simp only [List.mem_singleton] at h
      subst h
      exact digitChar_isDigit h10
    · rw [if_neg h10] at h
      rcases List.mem_append.mp h with h' | h'
      · exact ih _ _ h'
      · simp only [List.mem_singleton] at h'
        subst h'
        exact digitChar_isDigit (Nat.mod_lt _ (by omega))

theorem natChars_all_digit {n : Nat} {c : Char} (h : c ∈ natChars n) : c.isDigit = true :=
  natCharsAux_all_digit _ _ _ h

theorem natChars_ne_nil (n : Nat) : natChars n ≠ [] := by
  rw [natChars_eq]
  by_cases h10 : n < 10 <;> simp [h10]

theorem parseDigitsAux_stop {acc : Nat} {rest : List Char}
    (h : ∀ c, rest.head? = some c → c.isDigit = false) :
    parseDigitsAux acc rest = (acc, rest) := by
  cases rest with
  | nil => rfl
  | cons c cs =>
    have := h c rfl
    simp [parseDigitsAux, this]

theorem parseDigitsAux_natChars (n : Nat) :
    ∀ acc rest,
      parseDigitsAux acc (natChars n ++ rest) =
        parseDigitsAux (acc * 10 ^ (natChars n).length + n) rest := by
  induction n using Nat.strong_induction_on with
  | _ n ih =>
    intro acc rest
    rw [natChars_eq]
    by_cases h10 : n < 10
    · rw [if_pos h10]
      simp only [List.singleton_append, parseDigitsAux, digitChar_isDigit h10,
        if_pos, digitVal_digitChar h10, List.length_singleton, pow_one, List.append_eq,
        List.nil_append]
    · rw [if_neg h10]
      have hd : n / 10 < n := Nat.div_lt_self (by omega) (by omega)
      rw [List.append_assoc, ih (n / 10) hd, List.singleton_append, parseDigitsAux]
      have hm : n % 10 < 10 := Nat.mod_lt _ (by omega)
      rw [if_pos (digitChar_isDigit hm), digitVal_digitChar hm]
      have hlen : (natChars (n / 10) ++ [digitChar (n % 10)]).length =
          (natChars (n / 10)).length + 1 := by simp
      rw [hlen]
      congr 1
      have : (acc * 10 ^ (natChars (n / 10)).length + n / 10) * 10 + n % 10 =
          acc * (10 ^ (natChars (n / 10)).length * 10) + (n / 10 * 10 + n % 10) := by ring
      rw [this, pow_succ]
      congr 1
      omega

theorem parseNat_natChars {n : Nat} {rest : List Char}
    (h : ∀ c, rest.head? = some c → c.isDigit = false) :
    parseNat (natChars n ++ rest) = some (n, rest) := by
  have key : parseDigitsAux 0 (natChars n ++ rest) = (n, rest) := by
    rw [parseDigitsAux_natChars, parseDigitsAux_stop h]
    simp
  cases hnc : natChars n with
  | nil => exact absurd hnc (natChars_ne_nil n)
  | cons c cs =>
    have hc : c.isDigit = true := natChars_all_digit (by rw [hnc]; exact List.mem_cons_self _ _)
    rw [hnc] at key
    simp only [List.cons_append, parseDigitsAux, hc, if_pos, Nat.zero_mul, Nat.zero_add,
      List.append_eq] at key
    simp only [List.cons_append, parseNat, hc, if_pos, List.append_eq, key]

/-! ## String-literal round-trip -/

theorem hexVal_hexChar {d : Nat} (h : d < 16) : hexVal (hexChar d) = some d := by
  interval_cases d <;> decide

theorem parseStrAux_escChar (c : Char) (tl : List Char) :
    parseStrAux (escChar c ++ tl) = (parseStrAux tl).map fun p => (c :: p.1, p.2) := by
  unfold escChar
  split_ifs with h1 h2 h3 h4 h5 h6 h7 h8
  · subst h1; rfl
  · subst h2; rfl
  · have : c = Char.ofNat 8 := by
      have := congrArg Char.ofNat h3
      simpa using this
    subst this; rfl
  · have : c = Char.ofNat 12 := by
      have := congrArg Char.ofNat h4
      simpa using this
    subst this; rfl
  · subst h5; rfl
  · subst h6; rfl
  · subst h7; rfl
  · have hhi : c.toNat / 16 < 16 := by omega
    have hlo : c.toNat % 16 < 16 := by omega
    simp only [List.cons_append, List.append_assoc, List.nil_append]
    rw [parseStrAux]
    rw [hexVal_hexChar hhi, hexVal_hexChar hlo]
    have h0 : hexVal '0' = some 0 := by decide
    rw [h0]
    simp only [Option.bind_eq_bind, Option.some_bind]
    have hveq : ((0 * 16 + 0) * 16 + c.toNat / 16) * 16 + c.toNat % 16 = c.toNat := by omega
    rw [hveq]
    rw [if_pos (Or.inl (by omega : c.toNat < 0xd800))]
    simp [Char.ofNat_toNat]
  · have h32 : ¬c.toNat < 32 := h8
    simp only [List.cons_append, List.nil_append]
    rw [parseStrAux.eq_def]
    split
    · rename_i heq; exact absurd heq.symm (by simp)
    · rename_i heq
      rw [List.cons.injEq] at heq
      exact absurd heq.1 h1
    · rename_i heq
      rw [List.cons.injEq] at heq
      exact absurd heq.1 h2
    · rename_i heq
      rw [List.cons.injEq] at heq
      exact absurd heq.1 h2
    · rename_i heq
      injection heq with hc ht
      subst hc; subst ht
      rw [if_neg h32]

theorem parseStrAux_escChars : ∀ cs rest, parseStrAux (escChars cs ++ '"' :: rest) = some (cs, rest) := by
  intro cs
  induction cs with
  | nil => intro rest; rfl
  | cons c cs ih =>
    intro rest
    simp only [escChars, List.append_assoc]
    rw [parseStrAux_escChar, ih]
    rfl



mutual
/-- Fuel lower bound needed by `parseVal` to parse a serialized value. -/
def sizeJ : Json → Nat
  | .arr elems => 1 + esizeL elems
  | .obj members => 1 + msizeL members
  | _ => 1

/-- Fuel lower bound needed by `parseElems` on a serialized element list. -/
def esizeL : List Json → Nat
  | e :: es => sizeJ e + 1 + esizeL es
  | [] => 0

/-- Fuel lower bound needed by `parseMembers` on serialized members. -/
def msizeL : List (String × Json) → Nat
  | (_, headVal) :: ms => sizeJ headVal + 1 + msizeL ms
  | [] => 0
end

theorem sizeJ_pos (j : Json) : 1 ≤ sizeJ j := by
  rcases j with _ | b | n | s | l | l <;> simp [sizeJ]

/-- No leading digit: the condition under which a maximal-digit-run parse
stops exactly at `rest`. -/
def numDelim (rest : List Char) : Prop :=
  ∀ c, rest.head? = some c → c.isDigit = false

theorem numDelim_nil : numDelim [] := by intro c h; simp at h

theorem numDelim_cons {c : Char} (h : c.isDigit = false) (l : List Char) :
    numDelim (c :: l) := by
  intro d hd
  simp only [List.head?_cons, Option.some.injEq] at hd
  subst hd; exact h

theorem dropWhile_cons_false {p : Char → Bool} {c : Char} {l : List Char} (h : p c = false) :
    List.dropWhile p (c :: l) = c :: l := by
  simp [List.dropWhile, h]

theorem string_mk_data (s : String) : String.mk s.data = s := rfl

theorem stringify_head (j : Json) :
    ∃ c cs, stringifyChars j = c :: cs ∧ isJsonWs c = false ∧ c ≠ ']' ∧ c ≠ '}' := by
  rcases j with _ | b | n | s | (_ | ⟨x, xs⟩) | (_ | ⟨m, ms⟩)
  · exact ⟨'n', _, rfl, by decide, by decide, by decide⟩
  · cases b
    · exact ⟨'f', _, rfl, by decide, by decide, by decide⟩
    · exact ⟨'t', _, rfl, by decide, by decide, by decide⟩
  · show ∃ c cs, intChars n = c :: cs ∧ _
    rw [intChars]
    by_cases hn : n < 0
    · rw [if_pos hn]
      exact ⟨'-', _, rfl, by decide, by decide, by decide⟩
    · rw [if_neg hn]
      obtain ⟨c, cs, hnc⟩ : ∃ c cs, natChars n.toNat = c :: cs := by
        cases h : natChars n.toNat with
        | nil => exact absurd h (natChars_ne_nil _)
        | cons c cs => exact ⟨c, cs, rfl⟩
      have hdig : c.isDigit = true :=
        natChars_all_digit (by rw [hnc]; exact List.mem_cons_self _ _)
      refine ⟨c, cs, hnc, isDigit_not_jsonWs hdig, ?_, ?_⟩
      · intro h; subst h; simp at hdig
      · intro h; subst h; simp at hdig
  · exact ⟨'"', _, rfl, by decide, by decide, by decide⟩
  · exact ⟨'[', _, rfl, by decide, by decide, by decide⟩
  · exact ⟨'[', _, rfl, by decide, by decide, by decide⟩
  · exact ⟨'{', _, rfl, by decide, by decide, by decide⟩
  · exact ⟨'{', _, rfl, by decide, by decide, by decide⟩

theorem parse_round_fuel : ∀ fuel : Nat,
    (∀ (j : Json) (rest : List Char), sizeJ j ≤ fuel → numDelim rest →
      parseVal fuel (stringifyChars j ++ rest) = some (j, rest)) ∧
    (∀ (x : Json) (xs : List Json) (rest : List Char), esizeL (x :: xs) ≤ fuel →
      parseElems fuel (stringifyChars x ++ (elemsChars xs ++ ']' :: rest)) =
        some (x :: xs, rest)) ∧
    (∀ (m : String × Json) (ms : List (String × Json)) (rest : List Char),
      msizeL (m :: ms) ≤ fuel →
      parseMembers fuel (memberChars m ++ (membersChars ms ++ '}' :: rest)) =
        some (m :: ms, rest)) := by
  intro fuel
  induction fuel with
  | zero =>
    refine ⟨fun j rest hf _ => absurd hf (by have := sizeJ_pos j; omega), ?_, ?_⟩
    · intro x xs rest hf
      have := sizeJ_pos x
      simp only [esizeL] at hf
      omega
    · rintro ⟨k, v⟩ ms rest hf
      have := sizeJ_pos v
      simp only [msizeL] at hf
      omega
  | succ fuel ih =>
    obtain ⟨IHv, IHe, IHm⟩ := ih
    refine ⟨?_, ?_, ?_⟩
    · -- parseVal
      intro j rest hf hd
      rcases j with _ | b | n | s | (_ | ⟨x, xs⟩) | (_ | ⟨⟨k, v⟩, ms⟩)
      · show parseVal (fuel + 1) ("null".data ++ rest) = _
        rw [parseVal, show skipWs ("null".data ++ rest) = "null".data ++ rest from
          dropWhile_cons_false (by decide)]
        simp [expectLit]
      · cases b
        · show parseVal (fuel + 1) ("false".data ++ rest) = _
          rw [parseVal, show skipWs ("false".data ++ rest) = "false".data ++ rest from
            dropWhile_cons_false (by decide)]
          simp [expectLit]
        · show parseVal (fuel + 1) ("true".data ++ rest) = _
          rw [parseVal, show skipWs ("true".data ++ rest) = "true".data ++ rest from
            dropWhile_cons_false (by decide)]
          simp [expectLit]
      · -- numbers
        show parseVal (fuel + 1) (intChars n ++ rest) = _
        rw [intChars]
        by_cases hn : n < 0
        · rw [if_pos hn]
          rw [parseVal]
          rw [show skipWs (('-' :: natChars n.natAbs) ++ rest) =
            ('-' :: natChars n.natAbs) ++ rest from dropWhile_cons_false (by decide)]
          simp only [List.cons_append]
          simp only [Char.reduceEq, reduceIte]
          rw [@parseNat_natChars n.natAbs rest hd]
          rw [show Option.map (fun p => ((Json.num (-(p.1 : Int))), p.2))
            (some (n.natAbs, rest)) = some (Json.num (-(n.natAbs : Int)), rest) from rfl]
          rw [show -((n.natAbs : Nat) : Int) = n by omega]
        · rw [if_neg hn]
          obtain ⟨c, cs, hnc⟩ : ∃ c cs, natChars n.toNat = c :: cs := by
            cases h : natChars n.toNat with
            | nil => exact absurd h (natChars_ne_nil _)
            | cons c cs => exact ⟨c, cs, rfl⟩
          have hdig : c.isDigit = true :=
            natChars_all_digit (by rw [hnc]; exact List.mem_cons_self _ _)
          rw [hnc, parseVal]
          rw [show skipWs ((c :: cs) ++ rest) = (c :: cs) ++ rest from
            dropWhile_cons_false (isDigit_not_jsonWs hdig)]
          have hc1 : ¬c = 'n' := fun h => by subst h; simp at hdig
          have hc2 : ¬c = 't' := fun h => by subst h; simp at hdig
          have hc3 : ¬c = 'f' := fun h => by subst h; simp at hdig
          have hc4 : ¬c = '"' := fun h => by subst h; simp at hdig
          have hc5 : ¬c = '[' := fun h => by subst h; simp at hdig
          have hc6 : ¬c = '{' := fun h => by subst h; simp at hdig
          have hc7 : ¬c = '-' := fun h => by subst h; simp at hdig
          simp only [List.cons_append, if_neg hc1, if_neg hc2, if_neg hc3, if_neg hc4,
            if_neg hc5, if_neg hc6, if_neg hc7, hdig, if_pos]
          have hpn := @parseNat_natChars n.toNat rest hd
          rw [hnc] at hpn
          simp only [List.cons_append] at hpn
          rw [hpn]
          rw [show Option.map (fun p => ((Json.num ((p.1 : Nat) : Int)), p.2))
            (some (n.toNat, rest)) = some (Json.num ((n.toNat : Nat) : Int), rest) from rfl]
          rw [show ((n.toNat : Nat) : Int) = n by omega]
      · -- strings
        show parseVal (fuel + 1) (('"' :: (escChars s.data ++ ['"'])) ++ rest) = _
        rw [parseVal]
        rw [show skipWs (('"' :: (escChars s.data ++ ['"'])) ++ rest) =
          ('"' :: (escChars s.data ++ ['"'])) ++ rest from dropWhile_cons_false (by decide)]
        simp only [List.cons_append, List.append_assoc, List.singleton_append, List.nil_append]
        simp only [Char.reduceEq, reduceIte]
        rw [parseStrAux_escChars]
        simp [string_mk_data]
      · -- empty array
        show parseVal (fuel + 1) (('[' :: ']' :: []) ++ rest) = _
        rw [parseVal]
        rw [show skipWs (('[' :: ']' :: []) ++ rest) = ('[' :: ']' :: []) ++ rest from
          dropWhile_cons_false (by decide)]
        simp only [List.cons_append, List.nil_append]
        simp only [Char.reduceEq, reduceIte]
        rw [show skipWs (']' :: rest) = ']' :: rest from dropWhile_cons_false (by decide)]
        rfl
      · -- non-empty array
        show parseVal (fuel + 1)
          (('[' :: (stringifyChars x ++ elemsChars xs ++ [']'])) ++ rest) = _
        rw [parseVal]
        rw [show skipWs (('[' :: (stringifyChars x ++ elemsChars xs ++ [']'])) ++ rest) =
          ('[' :: (stringifyChars x ++ elemsChars xs ++ [']'])) ++ rest from
          dropWhile_cons_false (by decide)]
        simp only [List.cons_append, List.append_assoc, List.singleton_append, List.nil_append]
        simp only [Char.reduceEq, reduceIte]
        obtain ⟨c, cs, hc, hw, hne, _⟩ := stringify_head x
        have hinner : stringifyChars x ++ (elemsChars xs ++ ']' :: rest) =
            c :: (cs ++ (elemsChars xs ++ ']' :: rest)) := by rw [hc]; simp
        rw [hinner, show skipWs (c :: (cs ++ (elemsChars xs ++ ']' :: rest))) =
          c :: (cs ++ (elemsChars xs ++ ']' :: rest)) from dropWhile_cons_false hw]
        have helems := IHe x xs rest (by simp only [sizeJ] at hf; omega)
        rw [hinner] at helems
        split
        · rename_i rest' heq
          rw [List.cons.injEq] at heq
          exact absurd heq.1 hne
        · rw [helems]
          rfl
      · -- empty object
        show parseVal (fuel + 1) (('{' :: '}' :: []) ++ rest) = _
        rw [parseVal]
        rw [show skipWs (('{' :: '}' :: []) ++ rest) = ('{' :: '}' :: []) ++ rest from
          dropWhile_cons_false (by decide)]
        simp only [List.cons_append, List.nil_append]
        simp only [Char.reduceEq, reduceIte]
        rw [show skipWs ('}' :: rest) = '}' :: rest from dropWhile_cons_false (by decide)]
        rfl
      · -- non-empty object
        show parseVal (fuel + 1)
          (('{' :: (memberChars (k, v) ++ membersChars ms ++ ['}'])) ++ rest) = _
        rw [parseVal]
        rw [show skipWs (('{' :: (memberChars (k, v) ++ membersChars ms ++ ['}'])) ++ rest) =
          ('{' :: (memberChars (k, v) ++ membersChars ms ++ ['}'])) ++ rest from
          dropWhile_cons_false (by decide)]
        simp only [List.cons_append, List.append_assoc, List.singleton_append, List.nil_append]
        simp only [Char.reduceEq, reduceIte]
        have hmem : memberChars (k, v) ++ (membersChars ms ++ '}' :: rest) =
            '"' :: ((escChars k.data ++ '"' :: ':' :: stringifyChars v) ++
              (membersChars ms ++ '}' :: rest)) := by
          rw [memberChars]; simp
        rw [hmem, show skipWs ('"' :: ((escChars k.data ++ '"' :: ':' :: stringifyChars v) ++
          (membersChars ms ++ '}' :: rest))) =
          '"' :: ((escChars k.data ++ '"' :: ':' :: stringifyChars v) ++
            (membersChars ms ++ '}' :: rest)) from dropWhile_cons_false (by decide)]
        have hmembers := IHm (k, v) ms rest (by simp only [sizeJ] at hf; omega)
        rw [hmem] at hmembers
        split
        · rename_i rest' heq
          rw [List.cons.injEq] at heq
          exact absurd heq.1 (by decide)
        · rw [hmembers]
          rfl
    · -- parseElems
      intro x xs rest hf
      rw [parseElems]
      have hval := IHv x (elemsChars xs ++ ']' :: rest)
        (by simp only [esizeL] at hf; omega)
        (by
          cases xs with
          | nil => exact numDelim_cons (by decide) _
          | cons y ys => exact numDelim_cons (by decide) _)
      rw [hval]
      simp only [Option.bind_eq_bind, Option.some_bind]
      cases xs with
      | nil =>
        simp only [elemsChars, List.nil_append]
        rw [show skipWs (']' :: rest) = ']' :: rest from dropWhile_cons_false (by decide)]
        simp only [Char.reduceEq, reduceIte]
      | cons y ys =>
        simp only [elemsChars, List.cons_append, List.append_assoc]
        rw [show skipWs (',' :: (stringifyChars y ++ (elemsChars ys ++ ']' :: rest))) =
          ',' :: (stringifyChars y ++ (elemsChars ys ++ ']' :: rest)) from
          dropWhile_cons_false (by decide)]
        simp only [Char.reduceEq, reduceIte]
        rw [IHe y ys rest (by simp only [esizeL] at hf ⊢; have := sizeJ_pos x; omega)]
        rfl
    · -- parseMembers
      rintro ⟨k, v⟩ ms rest hf
      rw [parseMembers]
      have hmem : memberChars (k, v) ++ (membersChars ms ++ '}' :: rest) =
          '"' :: (escChars k.data ++ '"' :: (':' :: (stringifyChars v ++
            (membersChars ms ++ '}' :: rest)))) := by
        rw [memberChars]; simp
      rw [hmem, show skipWs ('"' :: (escChars k.data ++ '"' :: (':' :: (stringifyChars v ++
        (membersChars ms ++ '}' :: rest))))) =
        '"' :: (escChars k.data ++ '"' :: (':' :: (stringifyChars v ++
          (membersChars ms ++ '}' :: rest)))) from dropWhile_cons_false (by decide)]
      split
      · rename_i rest₀ heq
        injection heq with h1 h2
        subst h2
        rw [parseStrAux_escChars]
        simp only [Option.bind_eq_bind, Option.some_bind]
        rw [show skipWs (':' :: (stringifyChars v ++ (membersChars ms ++ '}' :: rest))) =
          ':' :: (stringifyChars v ++ (membersChars ms ++ '}' :: rest)) from
          dropWhile_cons_false (by decide)]
        simp only [Char.reduceEq, reduceIte]
        have hval := IHv v (membersChars ms ++ '}' :: rest)
          (by simp only [msizeL] at hf; omega)
          (by
            cases ms with
            | nil => exact numDelim_cons (by decide) _
            | cons m' ms' =>
              rcases m' with ⟨k', v'⟩
              exact numDelim_cons (by decide) _)
        rw [hval]
        simp only [Option.bind_eq_bind, Option.some_bind]
        cases ms with
        | nil =>
          simp only [membersChars, List.nil_append]
          rw [show skipWs ('}' :: rest) = '}' :: rest from dropWhile_cons_false (by decide)]
          simp only [Char.reduceEq, reduceIte]
        | cons m' ms' =>
          rcases m' with ⟨k', v'⟩
          simp only [membersChars, List.cons_append, List.append_assoc]
          rw [show skipWs (',' :: (memberChars (k', v') ++ (membersChars ms' ++ '}' :: rest))) =
            ',' :: (memberChars (k', v') ++ (membersChars ms' ++ '}' :: rest)) from
            dropWhile_cons_false (by decide)]
          simp only [Char.reduceEq, reduceIte]
          rw [IHm (k', v') ms' rest
            (by simp only [msizeL] at hf ⊢; have := sizeJ_pos v; omega)]
          rw [string_mk_data]
          rfl
      · rename_i heq
        exact absurd rfl (heq _)

mutual
theorem sizeJ_le : ∀ j : Json, sizeJ j ≤ (stringifyChars j).length
  | .null => by simp [sizeJ, stringifyChars]
  | .bool b => by cases b <;> simp [sizeJ, stringifyChars]
  | .num n => by
    have h : 1 ≤ (intChars n).length := by
      rw [intChars]
      by_cases hn : n < 0
      · simp [hn]
      · rw [if_neg hn]
        have := natChars_ne_nil n.toNat
        cases h : natChars n.toNat with
        | nil => exact absurd h this
        | cons c cs => simp [h]
    simpa [sizeJ, stringifyChars] using h
  | .str s => by simp [sizeJ, stringifyChars]
  | .arr [] => by simp [sizeJ, esizeL, stringifyChars]
  | .arr (x :: xs) => by
    have h1 := sizeJ_le x
    have h2 := esizeL_le xs
    simp only [sizeJ, esizeL, stringifyChars, List.length_cons, List.length_append,
      List.length_singleton]
    omega
  | .obj [] => by simp [sizeJ, msizeL, stringifyChars]
  | .obj ((k, v) :: ms) => by
    have h1 := sizeJ_le v
    have h2 := msizeL_le ms
    simp only [sizeJ, msizeL, stringifyChars, memberChars, List.length_cons,
      List.length_append, List.length_singleton]
    omega

theorem esizeL_le : ∀ l : List Json, esizeL l ≤ (elemsChars l).length
  | [] => by simp [esizeL, elemsChars]
  | x :: xs => by
    have h1 := sizeJ_le x
    have h2 := esizeL_le xs
    simp only [esizeL, elemsChars, List.length_cons, List.length_append]
    omega

theorem msizeL_le : ∀ ms : List (String × Json), msizeL ms ≤ (membersChars ms).length
  | [] => by simp [msizeL, membersChars]
  | (k, v) :: ms => by
    have h1 := sizeJ_le v
    have h2 := msizeL_le ms
    simp only [msizeL, membersChars, memberChars, List.length_cons, List.length_append]
    omega
end

/-- `JSON.parse ∘ JSON.stringify = id` on the modelled JSON values. -/
theorem parseLine_stringify (j : Json) : parseLine (stringifyChars j) = some j := by
  unfold parseLine
  have h := (parse_round_fuel ((stringifyChars j).length + 1)).1 j []
    (by have := sizeJ_le j; omega) numDelim_nil
  rw [List.append_nil] at h
  rw [h]
  rfl


/-! ## Trim, split and whitespace facts -/

theorem jsTrim_eq_self {l : List Char}
    (h1 : ∀ c, l.head? = some c → isJsWs c = false)
    (h2 : ∀ c, l.getLast? = some c → isJsWs c = false) : jsTrim l = l := by
  unfold jsTrim
  cases l with
  | nil => rfl
  | cons c cs =>
    rw [dropWhile_cons_false (h1 c rfl)]
    cases hl : (c :: cs).reverse with
    | nil => simp at hl
    | cons d ds =>
      have hd : (c :: cs).getLast? = some d := by
        rw [← List.head?_reverse, hl]
        rfl
      rw [dropWhile_cons_false (h2 d hd), ← hl, List.reverse_reverse]

theorem jsTrim_append_newline {l : List Char}
    (h1 : ∀ c, l.head? = some c → isJsWs c = false)
    (h2 : ∀ c, l.getLast? = some c → isJsWs c = false) : jsTrim (l ++ ['\n']) = l := by
  unfold jsTrim
  cases l with
  | nil => rfl
  | cons c cs =>
    rw [List.cons_append, dropWhile_cons_false (h1 c rfl)]
    have hrev : ((c :: cs) ++ ['\n']).reverse = '\n' :: (c :: cs).reverse := by
      simp
    rw [List.cons_append] at hrev
    rw [hrev]
    rw [show List.dropWhile isJsWs ('\n' :: (c :: cs).reverse) =
      List.dropWhile isJsWs ((c :: cs).reverse) from by simp [List.dropWhile]; rfl]
    cases hl : (c :: cs).reverse with
    | nil => simp at hl
    | cons d ds =>
      have hd : (c :: cs).getLast? = some d := by
        rw [← List.head?_reverse, hl]
        rfl
      rw [dropWhile_cons_false (h2 d hd), ← hl, List.reverse_reverse]

theorem jsSplitNl_no_nl : ∀ l : List Char, '\n' ∉ l → jsSplitNl l = [l] := by
  intro l
  induction l with
  | nil => intro _; rfl
  | cons c cs ih =>
    intro h
    have hc : ¬c = '\n' := fun hc => h (by rw [hc]; exact List.mem_cons_self _ _)
    have hcs : '\n' ∉ cs := fun hm => h (List.mem_cons_of_mem _ hm)
    rw [jsSplitNl, if_neg hc, ih hcs]

/-! ## Serializations contain no raw newline -/

theorem hexChar_toNat {d : Nat} (h : d < 16) :
    (hexChar d).toNat = if d < 10 then 48 + d else 87 + d := by
  unfold hexChar
  by_cases h10 : d < 10
  · rw [if_pos h10, if_pos h10, toNat_ofNat_valid (by omega)]
  · rw [if_neg h10, if_neg h10, toNat_ofNat_valid (by omega)]

theorem nl_not_mem_escChar (c : Char) : '\n' ∉ escChar c := by
  unfold escChar
  split_ifs with h1 h2 h3 h4 h5 h6 h7 h8
  · decide
  · decide
  · decide
  · decide
  · decide
  · decide
  · decide
  · intro hmem
    have hhi : c.toNat / 16 < 16 := by omega
    have hlo : c.toNat % 16 < 16 := by omega
    simp only [List.mem_cons, List.not_mem_nil, or_false] at hmem
    rcases hmem with h | h | h | h | h | h
    · exact absurd h (by decide)
    · exact absurd h (by decide)
    · exact absurd h (by decide)
    · exact absurd h (by decide)
    · have := congrArg Char.toNat h
      rw [hexChar_toNat hhi] at this
      have h10 : ('\n' : Char).toNat = 10 := by decide
      rw [h10] at this
      split_ifs at this <;> omega
    · have := congrArg Char.toNat h
      rw [hexChar_toNat hlo] at this
      have h10 : ('\n' : Char).toNat = 10 := by decide
      rw [h10] at this
      split_ifs at this <;> omega
  · intro hmem
    simp only [List.mem_singleton] at hmem
    have := congrArg Char.toNat hmem
    have h10 : ('\n' : Char).toNat = 10 := by decide
    rw [h10] at this
    omega

theorem nl_not_mem_escChars : ∀ cs : List Char, '\n' ∉ escChars cs := by
  intro cs
  induction cs with
  | nil => simp [escChars]
  | cons c cs ih =>
    rw [escChars]
    intro hmem
    rcases List.mem_append.mp hmem with h | h
    · exact nl_not_mem_escChar c h
    · exact ih h

theorem isDigit_ne_nl {c : Char} (hdig : c.isDigit = true) : c ≠ '\n' := by
  rintro rfl
  simp at hdig

theorem nl_not_mem_natChars (n : Nat) : '\n' ∉ natChars n := by
  intro hmem
  exact absurd rfl (isDigit_ne_nl (natChars_all_digit hmem))

theorem nl_not_mem_intChars (n : Int) : '\n' ∉ intChars n := by
  unfold intChars
  split_ifs with h
  · intro hmem
    rcases List.mem_cons.mp hmem with h' | h'
    · exact absurd h' (by decide)
    · exact nl_not_mem_natChars _ h'
  · exact nl_not_mem_natChars _

mutual
theorem nl_not_mem_stringify : ∀ j : Json, '\n' ∉ stringifyChars j
  | .null => by decide
  | .bool b => by cases b <;> decide
  | .num n => nl_not_mem_intChars n
  | .str s => by
    rw [stringifyChars]
    intro hmem
    rcases List.mem_cons.mp hmem with h | h
    · exact absurd h (by decide)
    · rcases List.mem_append.mp h with h' | h'
      · exact nl_not_mem_escChars _ h'
      · simp only [List.mem_singleton] at h'
        exact absurd h' (by decide)
  | .arr [] => by decide
  | .arr (x :: xs) => by
    rw [stringifyChars]
    intro hmem
    rcases List.mem_cons.mp hmem with h | h
    · exact absurd h (by decide)
    · rcases List.mem_append.mp h with h' | h'
      · rcases List.mem_append.mp h' with h'' | h''
        · exact nl_not_mem_stringify x h''
        · exact nl_not_mem_elems xs h''
      · simp only [List.mem_singleton] at h'
        exact absurd h' (by decide)
  | .obj [] => by decide
  | .obj (m :: ms) => by
    rw [stringifyChars]
    intro hmem
    rcases List.mem_cons.mp hmem with h | h
    · exact absurd h (by decide)
    · rcases List.mem_append.mp h with h' | h'
      · rcases List.mem_append.mp h' with h'' | h''
        · exact nl_not_mem_member m h''
        · exact nl_not_mem_members ms h''
      · simp only [List.mem_singleton] at h'
        exact absurd h' (by decide)

theorem nl_not_mem_elems : ∀ xs : List Json, '\n' ∉ elemsChars xs
  | [] => by decide
  | x :: xs => by
    rw [elemsChars]
    intro hmem
    rcases List.mem_cons.mp hmem with h | h
    · exact absurd h (by decide)
    · rcases List.mem_append.mp h with h' | h'
      · exact nl_not_mem_stringify x h'
      · exact nl_not_mem_elems xs h'

theorem nl_not_mem_member : ∀ m : String × Json, '\n' ∉ memberChars m
  | (k, v) => by
    rw [memberChars]
    intro hmem
    rcases List.mem_cons.mp hmem with h | h
    · exact absurd h (by decide)
    · rcases List.mem_append.mp h with h' | h'
      · exact nl_not_mem_escChars _ h'
      · rcases List.mem_cons.mp h' with h'' | h''
        · exact absurd h'' (by decide)
        · rcases List.mem_cons.mp h'' with h3 | h3
          · exact absurd h3 (by decide)
          · exact nl_not_mem_stringify v h3

theorem nl_not_mem_members : ∀ ms : List (String × Json), '\n' ∉ membersChars ms
  | [] => by decide
  | m :: ms => by
    rw [membersChars]
    intro hmem
    rcases List.mem_cons.mp hmem with h | h
    · exact absurd h (by decide)
    · rcases List.mem_append.mp h with h' | h'
      · exact nl_not_mem_member m h'
      · exact nl_not_mem_members ms h'
end

/-! ## Head and last characters of serializations -/

theorem natChars_concat (n : Nat) :
    ∃ cs c, natChars n = cs ++ [c] ∧ c.isDigit = true := by
  rw [natChars_eq]
  by_cases h10 : n < 10
  · rw [if_pos h10]
    exact ⟨[], digitChar n, rfl, digitChar_isDigit h10⟩
  · rw [if_neg h10]
    exact ⟨natChars (n / 10), digitChar (n % 10), rfl,
      digitChar_isDigit (Nat.mod_lt _ (by omega))⟩

theorem stringify_head_jsWs (j : Json) :
    ∀ c, (stringifyChars j).head? = some c → isJsWs c = false := by
  obtain ⟨c, cs, hc, hw, hne1, hne2⟩ := stringify_head j
  intro d hd
  rw [hc] at hd
  simp only [List.head?_cons, Option.some.injEq] at hd
  subst hd
  rcases j with _ | b | n | s | l | l
  · rw [show stringifyChars Json.null = ['n', 'u', 'l', 'l'] from rfl] at hc
    injection hc with h1 _
    rw [← h1]; decide
  · cases b <;>
      [rw [show stringifyChars (Json.bool false) = ['f', 'a', 'l', 's', 'e'] from rfl] at hc;
       rw [show stringifyChars (Json.bool true) = ['t', 'r', 'u', 'e'] from rfl] at hc] <;>
      (injection hc with h1 _; rw [← h1]; decide)
  · rw [show stringifyChars (Json.num n) = intChars n from rfl, intChars] at hc
    by_cases hn : n < 0
    · rw [if_pos hn] at hc
      injection hc with h1 _
      rw [← h1]; decide
    · rw [if_neg hn] at hc
      have hdig : c.isDigit = true :=
        natChars_all_digit (by rw [hc]; exact List.mem_cons_self _ _)
      exact isDigit_not_jsWs hdig
  · rw [show stringifyChars (Json.str s) = '"' :: (escChars s.data ++ ['"']) from rfl] at hc
    injection hc with h1 _
    rw [← h1]; decide
  · cases l with
    | nil =>
      rw [show stringifyChars (Json.arr []) = ['[', ']'] from rfl] at hc
      injection hc with h1 _
      rw [← h1]; decide
    | cons x xs =>
      rw [show stringifyChars (Json.arr (x :: xs)) =
        '[' :: (stringifyChars x ++ elemsChars xs ++ [']']) from rfl] at hc
      injection hc with h1 _
      rw [← h1]; decide
  · cases l with
    | nil =>
      rw [show stringifyChars (Json.obj []) = ['{', '}'] from rfl] at hc
      injection hc with h1 _
      rw [← h1]; decide
    | cons m ms =>
      rw [show stringifyChars (Json.obj (m :: ms)) =
        '{' :: (memberChars m ++ membersChars ms ++ ['}']) from rfl] at hc
      injection hc with h1 _
      rw [← h1]; decide

theorem getLast?_concat_eq {α : Type} (l : List α) (a : α) : (l ++ [a]).getLast? = some a := by
  simp

theorem stringify_last_jsWs (j : Json) :
    ∀ c, (stringifyChars j).getLast? = some c → isJsWs c = false := by
  intro d hd
  rcases j with _ | b | n | s | l | l
  · rw [show stringifyChars Json.null = ['n', 'u', 'l', 'l'] from rfl] at hd
    simp only [show (['n', 'u', 'l', 'l'] : List Char).getLast? = some 'l' from rfl,
      Option.some.injEq] at hd
    rw [← hd]; decide
  · cases b <;> simp only [show stringifyChars (Json.bool false) = ['f', 'a', 'l', 's', 'e']
      from rfl, show stringifyChars (Json.bool true) = ['t', 'r', 'u', 'e'] from rfl,
      show (['f', 'a', 'l', 's', 'e'] : List Char).getLast? = some 'e' from rfl,
      show (['t', 'r', 'u', 'e'] : List Char).getLast? = some 'e' from rfl,
      Option.some.injEq] at hd <;> (rw [← hd]; decide)
  · rw [show stringifyChars (Json.num n) = intChars n from rfl, intChars] at hd
    obtain ⟨cs, c, hc, hdig⟩ := natChars_concat n.natAbs
    obtain ⟨cs', c', hc', hdig'⟩ := natChars_concat n.toNat
    by_cases hn : n < 0
    · rw [if_pos hn, hc] at hd
      rw [show ('-' :: (cs ++ [c])).getLast? = some c from by
        rw [show '-' :: (cs ++ [c]) = ('-' :: cs) ++ [c] from by simp]
        exact getLast?_concat_eq _ _] at hd
      injection hd with h1
      rw [← h1]
      exact isDigit_not_jsWs hdig
    · rw [if_neg hn, hc', getLast?_concat_eq] at hd
      injection hd with h1
      rw [← h1]
      exact isDigit_not_jsWs hdig'
  · rw [show stringifyChars (Json.str s) = ('"' :: escChars s.data) ++ ['"'] from by
      rw [show stringifyChars (Json.str s) = '"' :: (escChars s.data ++ ['"']) from rfl]
      simp, getLast?_concat_eq] at hd
    injection hd with h1
    rw [← h1]; decide
  · cases l with
    | nil =>
      rw [show stringifyChars (Json.arr []) = ['[', ']'] from rfl] at hd
      simp only [show (['[', ']'] : List Char).getLast? = some ']' from rfl,
        Option.some.injEq] at hd
      rw [← hd]; decide
    | cons x xs =>
      rw [show stringifyChars (Json.arr (x :: xs)) =
        ('[' :: (stringifyChars x ++ elemsChars xs)) ++ [']'] from by
          rw [show stringifyChars (Json.arr (x :: xs)) =
            '[' :: (stringifyChars x ++ elemsChars xs ++ [']']) from rfl]
          simp, getLast?_concat_eq] at hd
      injection hd with h1
      rw [← h1]; decide
  · cases l with
    | nil =>
      rw [show stringifyChars (Json.obj []) = ['{', '}'] from rfl] at hd
      simp only [show (['{', '}'] : List Char).getLast? = some '}' from rfl,
        Option.some.injEq] at hd
      rw [← hd]; decide
    | cons m ms =>
      rw [show stringifyChars (Json.obj (m :: ms)) =
        ('{' :: (memberChars m ++ membersChars ms)) ++ ['}'] from by
          rw [show stringifyChars (Json.obj (m :: ms)) =
            '{' :: (memberChars m ++ membersChars ms ++ ['}']) from rfl]
          simp, getLast?_concat_eq] at hd
      injection hd with h1
      rw [← h1]; decide

/-! ## `parseInt` / `String(n)` round-trip -/

theorem parseIntJS_natChars (p : Nat) : parseIntJS (String.mk (natChars p)) = some (p : Int) := by
  unfold parseIntJS
  rw [show (String.mk (natChars p)).data = natChars p from rfl]
  obtain ⟨c, cs, hnc⟩ : ∃ c cs, natChars p = c :: cs := by
    cases h : natChars p with
    | nil => exact absurd h (natChars_ne_nil _)
    | cons c cs => exact ⟨c, cs, rfl⟩
  have hdig : c.isDigit = true :=
    natChars_all_digit (by rw [hnc]; exact List.mem_cons_self _ _)
  rw [hnc, show skipWs (c :: cs) = c :: cs from dropWhile_cons_false (isDigit_not_jsonWs hdig)]
  have hpn : parseNat (c :: cs) = some (p, []) := by
    have := @parseNat_natChars p [] (by intro c h; simp at h)
    rw [List.append_nil, hnc] at this
    exact this
  split
  · rename_i cs' heq
    injection heq with h1 _
    subst h1
    simp at hdig
  · rename_i cs' heq
    injection heq with h1 _
    subst h1
    simp at hdig
  · rename_i heq₁ heq₂
    rw [hpn]
    rfl

theorem loadPersistedPort_persistPort (p : Nat) (fs : FS) :
    loadPersistedPort (persistPort p fs) = some (p : Int) := by
  unfold loadPersistedPort persistPort
  simp only
  rw [jsTrim_eq_self
    (fun c h => isDigit_not_jsWs (natChars_all_digit (by
      cases hnc : natChars p with
      | nil => rw [hnc] at h; simp at h
      | cons d ds =>
        rw [hnc] at h
        simp only [List.head?_cons, Option.some.injEq] at h
        rw [h]
        exact List.mem_cons_self _ _)))
    (fun c h => isDigit_not_jsWs (natChars_all_digit (by
      obtain ⟨cs, d, hc, hdig⟩ := natChars_concat p
      rw [hc, getLast?_concat_eq] at h
      injection h with h1
      rw [hc, ← h1]
      exact List.mem_append.mpr (Or.inr (List.mem_singleton.mpr rfl)))))]
  exact parseIntJS_natChars p

/-! ## readLogs characterization -/

/-- The log-file content visible to `readLogs` after its initial
`writer?.flush()`: pending buffered bytes are appended to the file. -/
def effLogContent (s : St) (fs : FS) : Option String :=
  match s.writer with
  | some w => if w.closed then fs.logFile else some (fs.logFile.getD "" ++ w.buf)
  | none => fs.logFile

theorem readLogs_none_eq (s : St) (fs : FS) :
    (readLogs none s fs).1 =
      (match effLogContent s fs with
       | none => []
       | some content => parsedLines content) := by
  obtain ⟨srv, wr, fl⟩ := s
  obtain ⟨pf, lf⟩ := fs
  rcases wr with _ | ⟨buf, closed⟩
  · cases lf <;> rfl
  · cases closed
    · cases lf <;> rfl
    · cases lf <;> rfl

theorem readLogs_tail_eq (t : Int) (s : St) (fs : FS) :
    (readLogs (some t) s fs).1 =
      if 0 < t then
        ((readLogs none s fs).1).drop (((readLogs none s fs).1).length - t.toNat)
      else (readLogs none s fs).1 := by
  obtain ⟨srv, wr, fl⟩ := s
  obtain ⟨pf, lf⟩ := fs
  rcases wr with _ | ⟨buf, closed⟩
  · cases lf <;> by_cases ht : 0 < t <;> simp [readLogs, readEntries, writerFlush, ht]
  · cases closed <;> cases lf <;> by_cases ht : 0 < t <;>
      simp [readLogs, readEntries, writerFlush, ht]

/-! ## Claims -/

/-- C1: `start()` is idempotent while Running: whenever the server is
already bound to port `p`, `start(q)` for every optional requested port
`q` performs no rebind (server state and filesystem are returned
unchanged, no oracle consultation) and returns the existing binding
`{port := p, url := urlFor p}`. -/
theorem start_idempotent_while_running (s : St) (fs : FS) (q : Option Int)
    (oracle : Int → BindOutcome) (p : Nat) (h : s.server = some p) :
    start s fs q oracle = (.ok ⟨p, urlFor p⟩, s, fs) := by
  unfold start
  rw [h]

theorem start_idempotent_while_running_witness :
    start ⟨some 3000, some freshWriter, true⟩ ⟨none, none⟩ (some 4000) (fun _ => .conflict) =
      (.ok ⟨3000, urlFor 3000⟩, ⟨some 3000, some freshWriter, true⟩, ⟨none, none⟩) :=
  start_idempotent_while_running _ _ _ _ 3000 rfl

/-- C5: reader totality and corruption tolerance: `readLogs` with no tail
returns exactly the pipeline "split the (flushed) file content into
lines, drop blank lines, keep the lines that `JSON.parse` accepts, in
file order" (`parsedLines`); a missing file yields `[]` rather than an
error; and on a concrete log holding a malformed line between two valid
lines it returns exactly the two valid records in order. -/
theorem readLogs_reader_totality :
    (∀ (s : St) (fs : FS),
      (readLogs none s fs).1 =
        (match effLogContent s fs with
         | none => []
         | some content => parsedLines content)) ∧
    (∀ (s : St) (fs : FS), s.writer = none → fs.logFile = none →
      (readLogs none s fs).1 = []) ∧
    ((readLogs none ⟨none, none, false⟩
        ⟨none, some (stringify (.obj [("a", .num 1)]) ++ "\nnot json\n" ++
          stringify (.obj [("b", .num 2)]))⟩).1 =
      [.obj [("a", .num 1)], .obj [("b", .num 2)]]) := by
  refine ⟨fun s fs => readLogs_none_eq s fs, ?_, ?_⟩
  · intro s fs hw hlf
    rw [readLogs_none_eq, effLogContent, hw, hlf]
  · decide

theorem readLogs_reader_totality_witness :
    (readLogs none ⟨none, none, false⟩ ⟨none, none⟩).1 = [] :=
  readLogs_reader_totality.2.1 ⟨none, none, false⟩ ⟨none, none⟩ rfl rfl

/-- C6: tail semantics: for every state and every positive `N`,
`readLogs (some N)` returns exactly the last `N` parsed records in
original order (the length-`N` suffix) when the full parse has length
`≥ N`, and the full sequence when it has length `< N`. -/
theorem readLogs_tail_semantics (s : St) (fs : FS) (t : Int) (ht : 0 < t) :
    (t.toNat ≤ (readLogs none s fs).1.length →
      (readLogs (some t) s fs).1 =
        (readLogs none s fs).1.drop ((readLogs none s fs).1.length - t.toNat) ∧
      (readLogs (some t) s fs).1.length = t.toNat) ∧
    ((readLogs none s fs).1.length < t.toNat →
      (readLogs (some t) s fs).1 = (readLogs none s fs).1) := by
  rw [readLogs_tail_eq, if_pos ht]
  constructor
  · intro hlen
    refine ⟨rfl, ?_⟩
    rw [List.length_drop]
    omega
  · intro hlen
    rw [show (readLogs none s fs).1.length - t.toNat = 0 by omega, List.drop_zero]

/-- A concrete three-record NDJSON log used by the tail-semantics witness. -/
def demoLog3 : String :=
  stringify (.obj [("a", .num 1)]) ++ "\n" ++ stringify (.obj [("b", .num 2)]) ++ "\n" ++
    stringify (.obj [("c", .num 3)])

theorem readLogs_tail_semantics_witness :
    (readLogs (some 2) ⟨none, none, false⟩ ⟨none, some demoLog3⟩).1 =
      (readLogs none ⟨none, none, false⟩ ⟨none, some demoLog3⟩).1.drop 1 := by
  have h := (readLogs_tail_semantics ⟨none, none, false⟩
    ⟨none, some demoLog3⟩ 2 (by decide)).1 (by decide)
  rw [h.1]
  decide

/-- C8: fallback append with no open writer: for every record and every
prior log-file state (a present file with content `C`, or a missing file,
which is created), `appendLog` leaves the server state unchanged and the
log file equal to the prior content followed by the one-line JSON
serialization of the record and a trailing newline. -/
theorem appendLog_fallback_no_writer (e : LogEntry) (s : St) (fs : FS)
    (h : s.writer = none) :
    appendLog e s fs =
      (s, { fs with logFile := some (fs.logFile.getD "" ++ stringify e.toJson ++ "\n") }) ∧
    (fs.logFile = none →
      (appendLog e s fs).2.logFile = some (stringify e.toJson ++ "\n")) ∧
    (∀ C, fs.logFile = some C →
      (appendLog e s fs).2.logFile = some (C ++ stringify e.toJson ++ "\n")) := by
  unfold appendLog
  rw [h]
  refine ⟨rfl, ?_, ?_⟩
  · intro hlf
    rw [hlf]
    rfl
  · intro C hC
    rw [hC]
    rfl

theorem appendLog_fallback_no_writer_witness :
    appendLog ⟨"t", .str "a", .num 1⟩ ⟨none, none, false⟩ ⟨none, some "x\n"⟩ =
      (⟨none, none, false⟩,
        ⟨none, some ("x\n" ++ stringify (LogEntry.toJson ⟨"t", .str "a", .num 1⟩) ++ "\n")⟩) :=
  (appendLog_fallback_no_writer ⟨"t", .str "a", .num 1⟩ ⟨none, none, false⟩
    ⟨none, some "x\n"⟩ rfl).1

/-- C2: port-persistence round-trip: (1) `loadPersistedPort` after
`persistPort p` returns `p`; (2) `stop()` neither modifies nor deletes
the persisted port file; (3) from a stopped state whose port file holds
the value written by `persistPort p` (`p ≠ 0`), a `start()` with no
explicit port — against any bind environment that binds exactly the
requested port whenever it succeeds on a nonzero request — binds and
returns the same port `p`. -/
theorem port_persistence_roundtrip :
    (∀ (p : Nat) (fs : FS), loadPersistedPort (persistPort p fs) = some (p : Int)) ∧
    (∀ (s : St) (fs : FS), (stop s fs).2.portFile = fs.portFile) ∧
    (∀ (s : St) (fs fs₀ : FS) (p : Nat) (oracle : Int → BindOutcome)
       (r : StartResult) (s' : St) (fs' : FS),
      s.server = none →
      fs.portFile = (persistPort p fs₀).portFile →
      (∀ t u, oracle t = .ok u → t ≠ 0 → (u : Int) = t) →
      0 < p →
      start s fs none oracle = (.ok r, s', fs') →
      r.port = p ∧ s'.server = some p) := by
  refine ⟨loadPersistedPort_persistPort, ?_, ?_⟩
  · intro s fs
    obtain ⟨srv, wr, fl⟩ := s
    rcases wr with _ | ⟨buf, closed⟩
    · rfl
    · cases closed <;> rfl
  · intro s fs fs₀ p oracle r s' fs' hsrv hpf horacle hp hstart
    have hload : loadPersistedPort fs = some (p : Int) := by
      have h0 := loadPersistedPort_persistPort p fs₀
      unfold loadPersistedPort at h0 ⊢
      rw [hpf]
      exact h0
    have htarget : resolvePort none fs = (p : Int) := by
      rw [resolvePort, hload]
      rfl
    unfold start at hstart
    rw [hsrv] at hstart
    rw [htarget] at hstart
    cases hbind : oracle (p : Int) with
    | conflict =>
      rw [hbind] at hstart
      exact absurd (congrArg Prod.fst hstart) (by simp)
    | ok u =>
      rw [hbind] at hstart
      have hu : (u : Int) = (p : Int) := horacle _ _ hbind (by omega)
      have hup : u = p := by omega
      subst hup
      refine ⟨?_, ?_⟩
      · have h2 := congrArg Prod.fst hstart
        simp only at h2
        injection h2 with h3
        rw [← h3]
      · have h2 := congrArg (fun x => x.2.1.server) hstart
        simp only at h2
        rw [← h2]

theorem port_persistence_roundtrip_witness :
    ((⟨3000, urlFor 3000⟩ : StartResult).port = 3000 ∧
      (⟨some 3000, some freshWriter, true⟩ : St).server = some 3000) :=
  port_persistence_roundtrip.2.2 ⟨none, none, false⟩ ⟨some "3000", none⟩ ⟨none, none⟩
    3000 (fun t => if t = 3000 then .ok 3000 else .conflict)
    ⟨3000, urlFor 3000⟩ ⟨some 3000, some freshWriter, true⟩ ⟨some "3000", none⟩
    rfl (by decide)
    (by
      intro t u h ht
      by_cases h3 : t = 3000
      · subst h3
        have h4 : BindOutcome.ok 3000 = BindOutcome.ok u := by simp only [reduceIte] at h; exact h
        injection h4 with hu
        rw [← hu]
        decide
      · simp [h3] at h)
    (by decide)
    rfl

/-! ### C3: the port resolver and the spec's reading of it -/

/-- The spec's reading of the persisted value: usable only when the
trimmed content is literally a non-negative base-10 integer (non-empty,
all digits). -/
def specParsePersistedNonneg (fs : FS) : Option Int :=
  match fs.portFile with
  | none => none
  | some content =>
    let t := jsTrim content.data
    if t ≠ [] ∧ ∀ c ∈ t, c.isDigit then some ((parseDigitsAux 0 t).1 : Int) else none

/-- The resolver exactly as claim C3 states it: explicit port, else the
persisted value when parseable as a non-negative integer, else 0. -/
def specResolvePort (port? : Option Int) (fs : FS) : Int :=
  match port? with
  | some p => p
  | none =>
    match specParsePersistedNonneg fs with
    | some v => v
    | none => 0

/-- C3 counterexample: with persisted content `"-5"` the claim's
resolver falls through to 0 (not a non-negative integer), but the code's
resolver returns `parseInt("-5", 10) = -5`. -/
theorem resolvePort_spec_counterexample :
    resolvePort none ⟨some "-5", none⟩ = -5 ∧
    specResolvePort none ⟨some "-5", none⟩ = 0 ∧
    resolvePort none ⟨some "-5", none⟩ ≠ specResolvePort none ⟨some "-5", none⟩ := by
  decide

/-- C3 (amended): the resolver priority is (1) the explicit port when
supplied; else (2) the persisted value whenever `parseInt(content.trim(),
10)` yields a number — which may be negative and ignores trailing
garbage; else (3) the sentinel 0.  A missing port file and a `NaN` parse
both silently fall through to 0; the resolver is total (never raises). -/
theorem resolvePort_priority :
    (∀ (q : Int) (fs : FS), resolvePort (some q) fs = q) ∧
    (∀ (fs : FS) (v : Int), loadPersistedPort fs = some v → resolvePort none fs = v) ∧
    (∀ fs : FS, loadPersistedPort fs = none → resolvePort none fs = 0) ∧
    (∀ fs : FS, fs.portFile = none → loadPersistedPort fs = none) ∧
    (∀ (fs : FS) (content : String), fs.portFile = some content →
      parseIntJS (String.mk (jsTrim content.data)) = none → loadPersistedPort fs = none) := by
  refine ⟨fun q fs => rfl, ?_, ?_, ?_, ?_⟩
  · intro fs v h
    rw [resolvePort, h]
    rfl
  · intro fs h
    rw [resolvePort, h]
    rfl
  · intro fs h
    rw [loadPersistedPort, h]
  · intro fs content hc h
    rw [loadPersistedPort, hc]
    exact h

theorem resolvePort_priority_witness :
    resolvePort none ⟨some "garbage", none⟩ = 0 :=
  resolvePort_priority.2.2.1 ⟨some "garbage", none⟩
    (resolvePort_priority.2.2.2.2 ⟨some "garbage", none⟩ "garbage" rfl (by decide))

/-! ### C9: port conflict -/

/-- Claim C9 as stated: a conflicting bind surfaces the error and leaves
the controller in the `Stopped` resource state of the data model — no
listener bound *and no writer open*. -/
def claimC9 : Prop :=
  ∀ (s : St) (fs : FS) (q : Option Int) (oracle : Int → BindOutcome),
    s.server = none →
    (∀ t, oracle t = .conflict) →
    (start s fs q oracle).1 = .error () ∧
    (start s fs q oracle).2.1.server = none ∧
    (start s fs q oracle).2.1.writer = none

/-- C9 counterexample: a conflicting `start(8080)` from the pristine
stopped state does surface the error and binds no listener, but the
writer opened on line 95 — before the `Bun.serve` call that throws —
remains open, so the "no writer" part of the claimed Stopped state is
false. -/
theorem start_conflict_counterexample : ¬claimC9 := by
  intro h
  have h8080 := h ⟨none, none, false⟩ ⟨none, none⟩ (some 8080) (fun _ => .conflict)
    rfl (fun _ => rfl)
  exact absurd h8080.2.2 (by decide)

/-- C9 (amended): when the resolved port conflicts, `start` surfaces the
bind error to the caller (no different port is silently bound), no
listener is bound afterwards (`isRunning` reports false, i.e. the
Running/Stopped flag of the state machine is Stopped), the flush timer is
not started, and the persisted port is untouched — but the buffered
writer opened just before the bind attempt remains open. -/
theorem start_conflict_surfaces_error (s : St) (fs : FS) (q : Option Int)
    (oracle : Int → BindOutcome) (h : s.server = none)
    (hc : oracle (resolvePort q fs) = .conflict) :
    start s fs q oracle = (.error (), { s with writer := some freshWriter }, fs) := by
  unfold start
  rw [h]
  simp only [hc]

theorem start_conflict_surfaces_error_witness :
    start ⟨none, none, false⟩ ⟨none, none⟩ (some 8080) (fun _ => .conflict) =
      (.error (), ⟨none, some freshWriter, false⟩, ⟨none, none⟩) :=
  start_conflict_surfaces_error ⟨none, none, false⟩ ⟨none, none⟩ (some 8080)
    (fun _ => .conflict) rfl rfl

/-! ### C10: listener-implies-writer invariant -/

/-- The implicit invariant: while the listener is bound, a buffered
writer is open (present and not ended). -/
def listenerWriterInv (s : St) : Prop :=
  ∀ p, s.server = some p → ∃ w, s.writer = some w ∧ w.closed = false

/-- C10: every operation preserves "listener bound → writer open", and
under that invariant every append performed while Running takes the
buffered-writer path: the filesystem is untouched and the line goes to
the writer's buffer, never through the whole-file fallback. -/
theorem listener_writer_invariant :
    (∀ (s : St) (fs : FS) (q : Option Int) (oracle : Int → BindOutcome),
      listenerWriterInv s → listenerWriterInv (start s fs q oracle).2.1) ∧
    (∀ (s : St) (fs : FS), listenerWriterInv (stop s fs).1) ∧
    (∀ (t : Option Int) (s : St) (fs : FS),
      listenerWriterInv s → listenerWriterInv (readLogs t s fs).2.1) ∧
    (∀ (s : St) (fs : FS), listenerWriterInv s → listenerWriterInv (clearLogs s fs).1) ∧
    (∀ (e : LogEntry) (s : St) (fs : FS),
      listenerWriterInv s → listenerWriterInv (appendLog e s fs).1) ∧
    (∀ (e : LogEntry) (s : St) (fs : FS) (p : Nat),
      listenerWriterInv s → s.server = some p →
      ∃ w, s.writer = some w ∧
        appendLog e s fs =
          ({ s with writer := some ⟨w.buf ++ (stringify e.toJson ++ "\n"), false⟩ }, fs)) := by
  refine ⟨?wStart, ?wStop, ?wRead, ?wClear, ?wAppend, ?wPath⟩
  case wStart =>
    intro s fs q oracle hinv
    unfold start
    cases hsrv : s.server with
    | some p => exact fun p' hp' => hinv p' hp'
    | none =>
      cases oracle (resolvePort q fs) with
      | conflict =>
        intro p hp
        exact absurd hp (by simp)
      | ok a =>
        intro p hp
        exact ⟨freshWriter, rfl, rfl⟩
  · -- stop
    intro s fs
    intro p hp
    obtain ⟨srv, wr, fl⟩ := s
    rcases wr with _ | w <;> simp [stop] at hp
  · -- readLogs
    intro t s fs hinv p hp
    obtain ⟨srv, wr, fl⟩ := s
    rcases wr with _ | ⟨buf, closed⟩
    · exact hinv p hp
    · cases closed with
      | true =>
        obtain ⟨w, hw, hc⟩ := hinv p (by
          have hst : (readLogs t ⟨srv, some ⟨buf, true⟩, fl⟩ fs).2.1 =
              ⟨srv, some ⟨buf, true⟩, fl⟩ := rfl
          rw [hst] at hp
          exact hp)
        injection hw with hw'
        rw [← hw'] at hc
        simp at hc
      | false =>
        refine ⟨⟨"", false⟩, ?_, rfl⟩
        rfl
  · -- clearLogs
    intro s fs hinv p hp
    obtain ⟨srv, wr, fl⟩ := s
    have hsrv : srv = some p := by
      rcases wr with _ | ⟨buf, closed⟩
      · by_cases hs : srv.isSome <;> simp [clearLogs, hs] at hp <;> exact hp
      · by_cases hs : srv.isSome <;> cases closed <;> simp [clearLogs, hs] at hp <;> exact hp
    subst hsrv
    rcases wr with _ | ⟨buf, closed⟩
    · exact ⟨freshWriter, by simp [clearLogs], rfl⟩
    · cases closed <;> exact ⟨freshWriter, by simp [clearLogs], rfl⟩
  · -- appendLog
    intro e s fs hinv p hp
    obtain ⟨srv, wr, fl⟩ := s
    rcases wr with _ | ⟨buf, closed⟩
    · simp only [appendLog] at hp
      obtain ⟨w, hw, _⟩ := hinv p hp
      exact absurd hw (by simp)
    · simp only [appendLog, writerWrite] at hp ⊢
      obtain ⟨w, hw, hc⟩ := hinv p hp
      injection hw with hw'
      rw [← hw'] at hc
      simp only at hc
      subst hc
      simp only [Bool.false_eq_true, if_neg]
      exact ⟨⟨buf ++ (stringify e.toJson ++ "\n"), false⟩, by simp, rfl⟩
  · -- Running append takes the buffered path
    intro e s fs p hinv hp
    obtain ⟨w, hw, hc⟩ := hinv p hp
    refine ⟨w, hw, ?_⟩
    obtain ⟨srv, wr, fl⟩ := s
    simp only at hw
    subst hw
    simp only [appendLog, writerWrite, hc, Bool.false_eq_true, if_neg]
    rfl

theorem listener_writer_invariant_witness :
    ∃ w, (⟨some 3000, some freshWriter, true⟩ : St).writer = some w ∧
      appendLog ⟨"t", .str "a", .null⟩ ⟨some 3000, some freshWriter, true⟩ ⟨none, some ""⟩ =
        (⟨some 3000, some ⟨w.buf ++ (stringify (LogEntry.toJson ⟨"t", .str "a", .null⟩) ++ "\n"),
            false⟩, true⟩, ⟨none, some ""⟩) :=
  listener_writer_invariant.2.2.2.2.2 ⟨"t", .str "a", .null⟩
    ⟨some 3000, some freshWriter, true⟩ ⟨none, some ""⟩ 3000
    (fun _ _ => ⟨freshWriter, rfl, rfl⟩) rfl

/-! ### C7: clear then read, clear then append -/

theorem parsedLines_empty : parsedLines "" = [] := rfl

theorem parsedLines_stringify_newline (j : Json) :
    parsedLines (stringify j ++ "\n") = [j] := by
  unfold parsedLines
  have hdata : (stringify j ++ "\n").data = stringifyChars j ++ ['\n'] := by
    rw [String.data_append]
    rfl
  rw [hdata]
  rw [jsTrim_append_newline (stringify_head_jsWs j) (stringify_last_jsWs j)]
  rw [jsSplitNl_no_nl _ (nl_not_mem_stringify j)]
  have hne : (stringifyChars j).isEmpty = false := by
    obtain ⟨c, cs, hc, _⟩ := stringify_head j
    rw [hc]
    rfl
  rw [show List.filter (fun l => !l.isEmpty) [stringifyChars j] = [stringifyChars j] from by
    simp [List.filter, hne]]
  rw [show List.filterMap parseLine [stringifyChars j] = [j] from by
    simp [List.filterMap, parseLine_stringify j]]

/-- C7: `clearLogs` truncates the log file to zero bytes, and a
`readLogs` immediately after returns the empty sequence; moreover when
the server is Running at clear time a fresh buffered writer has been
reopened, a subsequent `appendLog` goes through, and the appended record
is returned (alone) by a later read. -/
theorem clearLogs_then_read_and_append (s : St) (fs : FS) :
    ((clearLogs s fs).2.logFile = some "" ∧
      (readLogs none (clearLogs s fs).1 (clearLogs s fs).2).1 = []) ∧
    (s.server.isSome = true →
      (clearLogs s fs).1.writer = some freshWriter ∧
      (∀ e : LogEntry,
        (readLogs none
          (appendLog e (clearLogs s fs).1 (clearLogs s fs).2).1
          (appendLog e (clearLogs s fs).1 (clearLogs s fs).2).2).1 = [e.toJson])) := by
  obtain ⟨srv, wr, fl⟩ := s
  obtain ⟨pf, lf⟩ := fs
  constructor
  · constructor
    · rcases wr with _ | ⟨buf, closed⟩
      · rcases srv with _ | p <;> rfl
      · cases closed <;> rcases srv with _ | p <;> rfl
    · rcases wr with _ | ⟨buf, closed⟩
      · rcases srv with _ | p <;> rw [readLogs_none_eq] <;> rfl
      · cases closed <;> rcases srv with _ | p <;> rw [readLogs_none_eq] <;> rfl
  · intro hsrv
    rcases srv with _ | p
    · simp at hsrv
    constructor
    · rcases wr with _ | ⟨buf, closed⟩
      · rfl
      · cases closed <;> rfl
    · intro e
      have key : ∀ (fl2 : Bool) (pf2 : Option String),
          (readLogs none
            (appendLog e ⟨some p, some freshWriter, fl2⟩ ⟨pf2, some ""⟩).1
            (appendLog e ⟨some p, some freshWriter, fl2⟩ ⟨pf2, some ""⟩).2).1 = [e.toJson] := by
        intro fl2 pf2
        rw [readLogs_none_eq]
        rw [show effLogContent
            (appendLog e ⟨some p, some freshWriter, fl2⟩ ⟨pf2, some ""⟩).1
            (appendLog e ⟨some p, some freshWriter, fl2⟩ ⟨pf2, some ""⟩).2 =
          some ("" ++ (stringify e.toJson ++ "\n")) from rfl]
        rw [show ("" ++ (stringify e.toJson ++ "\n")) = stringify e.toJson ++ "\n" from rfl]
        exact parsedLines_stringify_newline e.toJson
      rcases wr with _ | ⟨buf, closed⟩
      · exact key fl pf
      · cases closed <;> exact key fl pf

theorem clearLogs_then_read_and_append_witness :
    (clearLogs ⟨some 3000, some freshWriter, true⟩ ⟨none, some "old\n"⟩).1.writer =
        some freshWriter ∧
    (readLogs none
      (appendLog ⟨"t", .str "a", .num 1⟩
        (clearLogs ⟨some 3000, some freshWriter, true⟩ ⟨none, some "old\n"⟩).1
        (clearLogs ⟨some 3000, some freshWriter, true⟩ ⟨none, some "old\n"⟩).2).1
      (appendLog ⟨"t", .str "a", .num 1⟩
        (clearLogs ⟨some 3000, some freshWriter, true⟩ ⟨none, some "old\n"⟩).1
        (clearLogs ⟨some 3000, some freshWriter, true⟩ ⟨none, some "old\n"⟩).2).2).1 =
      [LogEntry.toJson ⟨"t", .str "a", .num 1⟩] :=
  ⟨((clearLogs_then_read_and_append ⟨some 3000, some freshWriter, true⟩
      ⟨none, some "old\n"⟩).2 rfl).1,
    ((clearLogs_then_read_and_append ⟨some 3000, some freshWriter, true⟩
      ⟨none, some "old\n"⟩).2 rfl).2 ⟨"t", .str "a", .num 1⟩⟩

/-! ### C4: the POST /log contract -/

/-- Field lookup as the claim reads it: the body's field when the body
is an object carrying it, absent otherwise. -/
def claimGet (b : Json) (k : String) : Option Json :=
  match b with
  | .obj members => members.lookup k
  | _ => none

/-- The record claim C4 says the handler appends: label defaults only
when absent, data defaults only when absent. -/
def claimC4Entry (now : String) (b : Json) : LogEntry :=
  ⟨now, (claimGet b "label").getD (.str "unknown"), (claimGet b "data").getD b⟩

/-- Claim C4 as stated: 400 + no append exactly on parse failure, and
every successfully parsed body is appended as `claimC4Entry` with a 200
response. -/
def claimC4 : Prop :=
  ∀ (b? : Option Json) (now : String) (s : St) (fs : FS),
    ((postLog b? now s fs).1 = (400, errorBody) ∧ (postLog b? now s fs).2 = (s, fs) ↔
      b? = none) ∧
    (∀ b, b? = some b →
      postLog b? now s fs = ((200, successBody), appendLog (claimC4Entry now b) s fs))

/-- C4 counterexample: the body `null` parses as JSON, yet the handler
answers `400 {"error":"Invalid JSON"}` and appends nothing, because
`body.label` on `null` throws a `TypeError` that the surrounding
`try/catch` swallows. -/
theorem postLog_contract_counterexample : ¬claimC4 := by
  intro h
  have h2 := (h (some .null) "t" ⟨none, none, false⟩ ⟨none, none⟩).2 .null rfl
  exact absurd (congrArg (fun x => x.1.1) h2) (by decide)

/-- C4 (amended): the handler responds `400 {"error":"Invalid JSON"}`
and appends nothing iff the body fails to parse as JSON *or parses to
`null`* (property access on `null` raises inside the same `try`); for
every other parsed body it appends exactly one record with timestamp =
`now`, label = the body's `label` field when present and non-null else
`"unknown"`, data = the body's `data` field when present and non-null
else the whole body, and responds `200 {"success":true}`. -/
theorem postLog_contract (b? : Option Json) (now : String) (s : St) (fs : FS) :
    ((postLog b? now s fs).1 = (400, errorBody) ∧ (postLog b? now s fs).2 = (s, fs) ↔
      b? = none ∨ b? = some .null) ∧
    (∀ b, b? = some b → b ≠ .null →
      postLog b? now s fs =
        ((200, successBody),
          appendLog ⟨now, jsCoalesce (claimGet b "label") (.str "unknown"),
            jsCoalesce (claimGet b "data") b⟩ s fs)) := by
  rcases b? with _ | b
  · refine ⟨by simp [postLog], ?_⟩
    intro b hb
    exact absurd hb (by simp)
  · rcases b with _ | x | n | sv | l | l
    · refine ⟨by simp [postLog, jsAccess, Bind.bind, Except.bind, Functor.map, Except.map, Pure.pure, Except.pure], ?_⟩
      intro b hb hbn
      injection hb with hbe
      exact absurd hbe.symm hbn
    · refine ⟨by simp [postLog, jsAccess, Bind.bind, Except.bind, Functor.map, Except.map, Pure.pure, Except.pure], ?_⟩
      intro b hb hbn
      injection hb with hbe
      subst hbe
      rfl
    · refine ⟨by simp [postLog, jsAccess, Bind.bind, Except.bind, Functor.map, Except.map, Pure.pure, Except.pure], ?_⟩
      intro b hb hbn
      injection hb with hbe
      subst hbe
      rfl
    · refine ⟨by simp [postLog, jsAccess, Bind.bind, Except.bind, Functor.map, Except.map, Pure.pure, Except.pure], ?_⟩
      intro b hb hbn
      injection hb with hbe
      subst hbe
      rfl
    · refine ⟨by simp [postLog, jsAccess, Bind.bind, Except.bind, Functor.map, Except.map, Pure.pure, Except.pure], ?_⟩
      intro b hb hbn
      injection hb with hbe
      subst hbe
      rfl
    · refine ⟨by simp [postLog, jsAccess, Bind.bind, Except.bind, Functor.map, Except.map, Pure.pure, Except.pure], ?_⟩
      intro b hb hbn
      injection hb with hbe
      subst hbe
      rfl

theorem postLog_contract_witness :
    postLog (some (.obj [("label", .str "x")])) "t" ⟨none, none, false⟩ ⟨none, none⟩ =
      ((200, successBody),
        appendLog ⟨"t",
          jsCoalesce (claimGet (.obj [("label", .str "x")]) "label") (.str "unknown"),
          jsCoalesce (claimGet (.obj [("label", .str "x")]) "data") (.obj [("label", .str "x")])⟩
          ⟨none, none, false⟩ ⟨none, none⟩) :=
  (postLog_contract (some (.obj [("label", .str "x")])) "t" ⟨none, none, false⟩
    ⟨none, none⟩).2 (.obj [("label", .str "x")]) rfl (by decide)

end DebugSrv
